import Mathlib

/-!
# Verification of the SDC multi-object tracker core (`tracker.py`)

Shallow embedding of `src/Final Project/tracker.py` (nuScenes configuration,
default `PointTracker` motion model; the `KF` branch depends on the external
`filterpy` library and is outside the embedded fragment).

Modelling conventions:
* Python dicts that hold detections/tracks become the `Det` structure; fields
  that the tracker adds to a dict at runtime (`ct`, `tracking`, `label_preds`,
  `tracking_id`, `age`, `active`) are `Option`-valued, `none` meaning "key
  absent".
* Machine floats are idealised as exact rationals `ℚ`.  The code computes the
  Euclidean distance `sqrt(sq)` and compares it with non-negative thresholds;
  since `sqrt` is monotone, every comparison `sqrt(sq) > t` (with `t ≥ 0`) is
  embedded as the equivalent `sq > t^2` on squared distances, keeping all
  definitions executable and decidable.
* Code that raises a Python exception returns `Except.error` carrying the
  exception kind.
* `scipy.optimize.linear_sum_assignment` is an external collaborator; it is
  abstracted as a `Solver` argument constrained by the structural contract
  `SolverOk` (index pairs in range, no duplicated row or column), which any
  correct assignment routine satisfies.
* `greedy_assignment` (tracker.py line 49) is a student TODO stub that raises
  `NotImplementedError`; the faithful embedding `comparing_positions` keeps the
  raise, while `greedy_assignment_spec` models the missing body from the spec.
-/

set_option maxRecDepth 8000

namespace SDC

/-- Decidable equality for `Except`, so that concrete runs of the embedded
code can be checked by `decide`. -/
instance {ε α : Type} [DecidableEq ε] [DecidableEq α] : DecidableEq (Except ε α)
  | .error e, .error f =>
    if h : e = f then .isTrue (congrArg Except.error h)
    else .isFalse fun c => h (by injection c)
  | .ok x, .ok y =>
    if h : x = y then .isTrue (congrArg Except.ok h)
    else .isFalse fun c => h (by injection c)
  | .error _, .ok _ => .isFalse fun c => Except.noConfusion c
  | .ok _, .error _ => .isFalse fun c => Except.noConfusion c

/-- Kinds of Python exceptions raised by the embedded code paths. -/
inductive PyErr where
  | notImplementedError
  | typeError
  | indexError
  | assertionError
deriving DecidableEq, Repr

/-- A detection/track record (a Python dict in `tracker.py`).  The first four
fields are supplied by the caller; the `Option` fields are the keys the tracker
adds while processing (absent = `none`). -/
structure Det where
  detection_name : String
  translation : ℚ × ℚ
  velocity : ℚ × ℚ
  detection_score : ℚ
  ct : Option (ℚ × ℚ) := none
  tracking : Option (ℚ × ℚ) := none
  label_preds : Option Nat := none
  tracking_id : Option Nat := none
  age : Option Nat := none
  active : Option Nat := none
deriving DecidableEq, Repr

/-- Default record used to embed Python's list indexing; all theorems that rely
on indexed access carry in-range side conditions, so this default is inert. -/
def defaultDet : Det :=
  { detection_name := "", translation := (0, 0), velocity := (0, 0), detection_score := 0 }

/-- `NUSCENES_TRACKING_NAMES` (tracker.py lines 8-19). -/
def NUSCENES_TRACKING_NAMES : List String :=
  ["bicycle", "bus", "car", "motorcycle", "pedestrian", "trailer", "truck",
   "construction_vehicle", "barrier", "traffic_cone"]

/-- `NUSCENE_CLS_VELOCITY_ERROR` (tracker.py lines 24-35).  A missing key would
raise `KeyError` in Python; the tracker only queries names from
`NUSCENES_TRACKING_NAMES`, so the catch-all `0` is unreachable in the flow. -/
def velocity_error (s : String) : ℚ :=
  if s = "car" then 3
  else if s = "truck" then 4
  else if s = "bus" then 11/2
  else if s = "trailer" then 2
  else if s = "pedestrian" then 1
  else if s = "motorcycle" then 4
  else if s = "bicycle" then 5/2
  else if s = "construction_vehicle" then 1
  else if s = "barrier" then 1
  else if s = "traffic_cone" then 1
  else 0

/-- Elementwise sum of 2-vectors (numpy `+` on shape-(2,) arrays). -/
def add2 (p q : ℚ × ℚ) : ℚ × ℚ := (p.1 + q.1, p.2 + q.2)

/-- Elementwise negation of a 2-vector (numpy `* -1`). -/
def neg2 (p : ℚ × ℚ) : ℚ × ℚ := (-p.1, -p.2)

/-- Scalar multiple of a 2-vector. -/
def smul2 (c : ℚ) (p : ℚ × ℚ) : ℚ × ℚ := (c * p.1, c * p.2)

/-- Squared Euclidean distance; the code's `dist` is `sqrt` of this
(tracker.py lines 63-64). -/
def sqDist (p q : ℚ × ℚ) : ℚ := (p.1 - q.1) ^ 2 + (p.2 - q.2) ^ 2

/-- One entry of the gated cost matrix.  The code stores the scalar
`dist + invalid * 1e18`; we keep the squared distance together with the
gating flag, which determines the same ordering and the same downstream
comparisons (valid entries are at most `5.5 < 1e16`, invalid ones `≥ 1e18`). -/
structure CostCell where
  sq : ℚ
  invalid : Bool
deriving DecidableEq, Repr

/-- Gating of one pair (tracker.py lines 65-66): a pair is invalid when the
distance exceeds the detection class's velocity-error threshold
(`dist > max_diff`, embedded as `sq > thr^2`) or the class labels differ. -/
def costCell (thr : ℚ) (cat2 cat1 : Nat) (pos2 pos1 : ℚ × ℚ) : CostCell :=
  { sq := sqDist pos2 pos1,
    invalid := decide (thr ^ 2 < sqDist pos2 pos1) || decide (cat2 ≠ cat1) }

/-- The N x M cost matrix of `comparing_positions` (tracker.py lines 58-67):
row `i` is detection `i` (from `positions2`), column `j` is prior track `j`
(from `positions1`). -/
def costMatrix (p1data p2data : List Det) (p1 p2 : List (ℚ × ℚ)) :
    Nat → Nat → CostCell := fun i j =>
  costCell (velocity_error (p2data.getD i defaultDet).detection_name)
    ((p2data.getD i defaultDet).label_preds.getD 0)
    ((p1data.getD j defaultDet).label_preds.getD 0)
    (p2.getD i (0, 0)) (p1.getD j (0, 0))

/-- The hungarian-mode post-filter (tracker.py line 83): a returned pair is
discarded when `dist[m] > 1e16`.  After `dist = dist + invalid*1e18` and the
clip at line 69, an invalid entry sits at `1e18 > 1e16`, and a valid entry is
discarded iff its distance exceeds `1e16`, i.e. `sq > 1e32`. -/
def hungDiscard (c : CostCell) : Bool :=
  c.invalid || decide ((10 : ℚ) ^ 32 < c.sq)

/-- Type of an assignment routine over the cost matrix: given the dims `N`
(detections) and `M` (tracks) it returns (detection-index, track-index)
pairs. -/
abbrev Solver := Nat → Nat → (Nat → Nat → CostCell) → List (Nat × Nat)

/-- Structural contract satisfied by any correct assignment routine (scipy's
`linear_sum_assignment` in particular): returned pairs are in range and no row
or column is used twice. -/
def SolverOk (f : Solver) : Prop :=
  ∀ N M cost, (∀ p ∈ f N M cost, p.1 < N ∧ p.2 < M) ∧
    ((f N M cost).map Prod.fst).Nodup ∧ ((f N M cost).map Prod.snd).Nodup

/-- A routine that only returns pairs below the sentinel (never a gated
pair); the spec's greedy strategy guarantees this. -/
def SolverGated (f : Solver) : Prop :=
  ∀ N M cost, ∀ p ∈ f N M cost, (cost p.1 p.2).invalid = false

/-- The row-major list of admissible (below-sentinel) cells of the matrix. -/
def greedyCells (N M : Nat) (cost : Nat → Nat → CostCell) : List (Nat × Nat × ℚ) :=
  (List.range N).flatMap fun i =>
    (List.range M).filterMap fun j =>
      if (cost i j).invalid then none else some (i, j, (cost i j).sq)

/-- Insertion into a list sorted by ascending cost; strict comparison keeps the
insertion stable, so ties are broken by encounter (row-major) order. -/
def insertBySq (x : Nat × Nat × ℚ) : List (Nat × Nat × ℚ) → List (Nat × Nat × ℚ)
  | [] => [x]
  | y :: ys => if x.2.2 < y.2.2 then x :: y :: ys else y :: insertBySq x ys

/-- Stable insertion sort by ascending cost. -/
def sortBySq : List (Nat × Nat × ℚ) → List (Nat × Nat × ℚ)
  | [] => []
  | x :: xs => insertBySq x (sortBySq xs)

/-- Walk the cells in ascending cost order, accepting a cell when both its row
and its column are still unused. -/
def greedyPick : List (Nat × Nat × ℚ) → List Nat → List Nat → List (Nat × Nat)
  | [], _, _ => []
  | c :: rest, ur, uc =>
    if c.1 ∈ ur ∨ c.2.1 ∈ uc then greedyPick rest ur uc
    else (c.1, c.2.1) :: greedyPick rest (c.1 :: ur) (c.2.1 :: uc)

/-- Modelled from the spec: the body of `greedy_assignment` (tracker.py lines
38-51) is a student TODO stub that raises `NotImplementedError`, so the greedy
strategy is modelled from spec 4.2: repeatedly pick the lowest remaining
admissible cell (ties broken in row-major encounter order), accept it if row
and column are unused, and stop when no admissible cell remains. -/
def greedy_assignment_spec : Solver := fun N M cost =>
  greedyPick (sortBySq (greedyCells N M cost)) [] []

/-- Session state of `PubTracker` (tracker.py lines 112-141), restricted to the
fields the nuScenes / PointTracker configuration uses.  `score_update` is only
ever tested against `None` in the code, hence a `Bool` here. -/
structure TrackerState where
  hungarian : Bool
  max_age : Nat
  noise : ℚ
  s_th : ℚ
  score_update : Bool
  det_th : ℚ
  del_th : ℚ
  min_hits : Nat
  id_count : Nat
  tracks : List Det
deriving DecidableEq, Repr

/-- `PubTracker.__init__` defaults followed by `reset()` (tracker.py lines
113-141): `hungarian=False, max_age=6, noise=0.05, active_th=1, min_hits=1,
score_update=None, deletion_th=0.0, detection_th=0.0`. -/
def initState : TrackerState :=
  { hungarian := false, max_age := 6, noise := 1/20, s_th := 1,
    score_update := false, det_th := 0, del_th := 0, min_hits := 1,
    id_count := 0, tracks := [] }

/-- Result triple of the assignment stage: matches, unmatched track indices,
unmatched detection indices. -/
abbrev CPResult := List (Nat × Nat) × List Nat × List Nat

/-- Type of the assignment stage (`comparing_positions(self, ...)`). -/
abbrev CPFun :=
  TrackerState → List Det → List Det → List (ℚ × ℚ) → List (ℚ × ℚ) →
    Except PyErr CPResult

/-- Faithful embedding of `comparing_positions` (tracker.py lines 54-90) as the
code stands: with at least one prior track the hungarian branch raises
`TypeError` at line 77 (`matched_indices[:, 1]` applied to the tuple returned
by `linear_sum_assignment`; the `reshape` helper of line 105 is never called),
and the greedy branch raises `NotImplementedError` from the line-49 stub.  With
no prior track, lines 73-90 return no matches, no unmatched tracks, and every
detection unmatched. -/
def comparing_positions : CPFun := fun st p1data _p2data p1 p2 =>
  if 0 < p1.length then
    if st.hungarian then .error .typeError
    else .error .notImplementedError
  else if p1data.length = 0 then
    .ok ([], [], List.range p2.length)
  else .error .assertionError

/-- The full solver output before any filtering (tracker.py lines 68-72), with
`linear_sum_assignment` abstracted as `lsa` and the stubbed greedy routine as
`g`. -/
def cpFull (lsa g : Solver) (st : TrackerState) (p1data p2data : List Det)
    (p1 p2 : List (ℚ × ℚ)) : List (Nat × Nat) :=
  if st.hungarian then lsa p2data.length p1data.length (costMatrix p1data p2data p1 p2)
  else g p2data.length p1data.length (costMatrix p1data p2data p1 p2)

/-- Unmatched prior tracks (tracker.py line 77): indices of `positions1` whose
column is not used by any returned pair. -/
def cpU1 (lsa g : Solver) (st : TrackerState) (p1data p2data : List Det)
    (p1 p2 : List (ℚ × ℚ)) : List Nat :=
  (List.range p1.length).filter fun d =>
    decide (d ∉ (cpFull lsa g st p1data p2data p1 p2).map Prod.snd)

/-- Unmatched detections before the hungarian post-filter (tracker.py
line 78). -/
def cpU2base (lsa g : Solver) (st : TrackerState) (p1data p2data : List Det)
    (p1 p2 : List (ℚ × ℚ)) : List Nat :=
  (List.range p2.length).filter fun d =>
    decide (d ∉ (cpFull lsa g st p1data p2data p1 p2).map Prod.fst)

/-- Hungarian-mode pairs discarded by the sentinel filter (tracker.py lines
82-84). -/
def cpDiscards (lsa g : Solver) (st : TrackerState) (p1data p2data : List Det)
    (p1 p2 : List (ℚ × ℚ)) : List (Nat × Nat) :=
  (cpFull lsa g st p1data p2data p1 p2).filter fun m =>
    hungDiscard (costMatrix p1data p2data p1 p2 m.1 m.2)

/-- Final matches (tracker.py lines 80-89): hungarian mode keeps the pairs
below the sentinel, greedy mode returns the solver output unchanged. -/
def cpMatches (lsa g : Solver) (st : TrackerState) (p1data p2data : List Det)
    (p1 p2 : List (ℚ × ℚ)) : List (Nat × Nat) :=
  if st.hungarian then
    (cpFull lsa g st p1data p2data p1 p2).filter fun m =>
      !hungDiscard (costMatrix p1data p2data p1 p2 m.1 m.2)
  else cpFull lsa g st p1data p2data p1 p2

/-- Final unmatched detections (tracker.py line 84): in hungarian mode the
detection index of each discarded pair is appended; the discarded pair's track
index is appended nowhere. -/
def cpU2 (lsa g : Solver) (st : TrackerState) (p1data p2data : List Det)
    (p1 p2 : List (ℚ × ℚ)) : List Nat :=
  if st.hungarian then
    cpU2base lsa g st p1data p2data p1 p2 ++
      (cpDiscards lsa g st p1data p2data p1 p2).map Prod.fst
  else cpU2base lsa g st p1data p2data p1 p2

/-- Modelled from the spec: `comparing_positions` as intended (spec 4.1-4.2),
i.e. with the line-105 `reshape` applied to the hungarian output (so the
`matched_indices[:, 1]` / `[:, 0]` reads are well-typed) and with the missing
greedy body supplied by `greedy_assignment_spec` through the `g` argument.
Everything else follows tracker.py lines 54-90 directly. -/
def comparing_positions_model (lsa g : Solver) : CPFun := fun st p1data p2data p1 p2 =>
  if 0 < p1.length then
    .ok (cpMatches lsa g st p1data p2data p1 p2,
         cpU1 lsa g st p1data p2data p1 p2,
         cpU2 lsa g st p1data p2data p1 p2)
  else if p1data.length = 0 then
    .ok ([], [], List.range p2.length)
  else .error .assertionError

/-- Per-detection extension (tracker.py lines 169-173): set `ct` to the 2D
translation, `tracking` to `velocity * -1 * time_lag` (PointTracker mode) and
`label_preds` to the class index in the tracked-name table. -/
def extendDet (time_lag : ℚ) (d : Det) : Det :=
  { d with ct := some d.translation,
           tracking := some (smul2 ((-1) * time_lag) d.velocity),
           label_preds := some (NUSCENES_TRACKING_NAMES.indexOf d.detection_name) }

/-- The admissible-detection filter plus extension (tracker.py lines 163-176):
detections whose class is not tracked are skipped, the rest are extended in
place. -/
def preprocess (time_lag : ℚ) (results : List Det) : List Det :=
  results.filterMap fun det =>
    if det.detection_name ∈ NUSCENES_TRACKING_NAMES then some (extendDet time_lag det)
    else none

/-- Predicted detection positions (tracker.py lines 217-226): `ct + tracking`
when the first record carries a `tracking` key, else plain `ct`. -/
def detsOf (temp : List Det) : List (ℚ × ℚ) :=
  if (temp.getD 0 defaultDet).tracking.isSome then
    temp.map fun d => add2 (d.ct.getD (0, 0)) (d.tracking.getD (0, 0))
  else temp.map fun d => d.ct.getD (0, 0)

/-- Prior-track positions (tracker.py lines 228-229). -/
def trkPos (st : TrackerState) : List (ℚ × ℚ) :=
  st.tracks.map fun t => t.ct.getD (0, 0)

/-- First-frame births (tracker.py lines 183-211): each admissible detection
becomes a track with a fresh id, `age = 1` and `active = min_hits`; the
counter argument `c` is the running `id_count`. -/
def birthAll (st : TrackerState) : Nat → List Det → List Det
  | _, [] => []
  | c, d :: rest =>
    { d with tracking_id := some (c + 1), age := some 1, active := some st.min_hits }
      :: birthAll st (c + 1) rest

/-- Matched-detection updates (tracker.py lines 252-268): the detection record
inherits the matched track's id, resets `age` to 1 and increments the track's
activity counter. -/
def matchOut (st : TrackerState) (temp : List Det) (matched : List (Nat × Nat)) :
    List Det :=
  matched.map fun m =>
    { temp.getD m.1 defaultDet with
        tracking_id := (st.tracks.getD m.2 defaultDet).tracking_id,
        age := some 1,
        active := some ((st.tracks.getD m.2 defaultDet).active.getD 0 + 1) }

/-- Unmatched-detection births (tracker.py lines 270-294): fresh id, `age = 1`,
`active = 1` iff the confidence exceeds the detection threshold (the line-276
assignment of 1 is immediately overwritten by lines 290-293). -/
def birthOut (st : TrackerState) (temp : List Det) : Nat → List Nat → List Det
  | _, [] => []
  | c, i :: rest =>
    { temp.getD i defaultDet with
        tracking_id := some (c + 1), age := some 1,
        active := some (if st.det_th < (temp.getD i defaultDet).detection_score then 1 else 0) }
      :: birthOut st temp (c + 1) rest

/-- Score decay of an unmatched track (tracker.py lines 302-303). -/
def decayTrack (st : TrackerState) (t : Det) : Det :=
  if st.score_update then { t with detection_score := t.detection_score - st.noise }
  else t

/-- Keep condition for an unmatched track (tracker.py line 306). -/
def survives (st : TrackerState) (t : Det) : Bool :=
  decide (t.age.getD 0 < st.max_age) && decide (st.del_th < t.detection_score)

/-- Ageing of a surviving unmatched track (tracker.py lines 307-323):
increment `age`, update `active` against the activation threshold, and move the
point-tracker centre forward by `-tracking`, mirroring it into
`translation`. -/
def ageTrack (st : TrackerState) (t : Det) : Det :=
  if t.tracking.isSome then
    { t with age := some (t.age.getD 0 + 1),
             active := some (if st.s_th < t.detection_score then t.active.getD 0 + 1 else 0),
             ct := some (add2 (t.ct.getD (0, 0)) (neg2 (t.tracking.getD (0, 0)))),
             translation := add2 (t.ct.getD (0, 0)) (neg2 (t.tracking.getD (0, 0))) }
  else
    { t with age := some (t.age.getD 0 + 1),
             active := some (if st.s_th < t.detection_score then t.active.getD 0 + 1 else 0) }

/-- Unmatched-track processing (tracker.py lines 298-324): decay, keep iff
`age < max_age` and score above the deletion threshold, then age. -/
def agedOut (st : TrackerState) (u1 : List Nat) : List Det :=
  ((u1.map fun i => decayTrack st (st.tracks.getD i defaultDet)).filter
      (survives st)).map (ageTrack st)

/-- `PubTracker.step_centertrack` (tracker.py lines 143-327) in PointTracker
mode, parameterised by the assignment stage `cp`.  An empty raw frame resets
the track list (lines 156-159); a first frame births all admissible detections
(lines 183-211); a frame whose detections were all filtered out raises
`IndexError` at line 217 (`results[0]` on the emptied list); otherwise the
assignment stage runs and the new live set is matches ++ births ++ survivors
(lines 252-327). -/
def step_centertrack (cp : CPFun) (st : TrackerState) (results : List Det)
    (time_lag : ℚ) : Except PyErr (List Det × TrackerState) :=
  if results.isEmpty then .ok ([], { st with tracks := [] })
  else if st.tracks.length = 0 then
    .ok (birthAll st st.id_count (preprocess time_lag results),
         { st with id_count := st.id_count + (preprocess time_lag results).length,
                   tracks := birthAll st st.id_count (preprocess time_lag results) })
  else if (preprocess time_lag results).isEmpty then .error .indexError
  else
    match cp st st.tracks (preprocess time_lag results) (trkPos st)
        (detsOf (preprocess time_lag results)) with
    | .error e => .error e
    | .ok (matched, u1, u2) =>
      .ok (matchOut st (preprocess time_lag results) matched ++
             birthOut st (preprocess time_lag results) st.id_count u2 ++ agedOut st u1,
           { st with id_count := st.id_count + u2.length,
                     tracks := matchOut st (preprocess time_lag results) matched ++
                       birthOut st (preprocess time_lag results) st.id_count u2 ++
                       agedOut st u1 })

/-- A session: fold `step_centertrack` over a list of (frame, time_lag) pairs,
propagating the first raised exception. -/
def runFrames (cp : CPFun) : TrackerState → List (List Det × ℚ) →
    Except PyErr TrackerState
  | st, [] => .ok st
  | st, f :: fs =>
    match step_centertrack cp st f.1 f.2 with
    | .error e => .error e
    | .ok (_, st') => runFrames cp st' fs

/-- The identity invariant of a session state: live tracks carry pairwise
distinct, positive identities bounded by the session counter. -/
def IdsOk (st : TrackerState) : Prop :=
  (st.tracks.map (fun t => t.tracking_id)).Nodup ∧
  ∀ t ∈ st.tracks, ∃ n, t.tracking_id = some n ∧ 0 < n ∧ n ≤ st.id_count

/-- A trivially correct assignment routine (the empty matching); used to
instantiate solver hypotheses in witnesses. -/
def emptySolver : Solver := fun _ _ _ => []

/-- The routine returning the single pair (0,0); on a 1 x 1 cost matrix this is
exactly what `linear_sum_assignment` returns. -/
def pairSolver : Solver := fun _ _ _ => [(0, 0)]

/-- A caller-supplied car detection at the origin. -/
def carDet0 : Det :=
  { detection_name := "car", translation := (0, 0), velocity := (0, 0), detection_score := 1 }

/-- A caller-supplied detection of a class outside the tracked set. -/
def ignoreDet : Det :=
  { detection_name := "ignore", translation := (0, 0), velocity := (0, 0), detection_score := 1 }

/-- The track born from `carDet0` on a first frame with `time_lag = 1`. -/
def birthTrk : Det :=
  { detection_name := "car", translation := (0, 0), velocity := (0, 0), detection_score := 1,
    ct := some (0, 0), tracking := some (0, 0), label_preds := some 2,
    tracking_id := some 1, age := some 1, active := some 1 }

/-- Session state after that first frame: one live track, counter at 1. -/
def afterSt : TrackerState := { initState with id_count := 1, tracks := [birthTrk] }

/-- The same session state with the hungarian strategy selected. -/
def afterStH : TrackerState := { afterSt with hungarian := true }

/-- A car detection far outside the 3 m car gate of `birthTrk`. -/
def farCar : Det :=
  { detection_name := "car", translation := (100, 0), velocity := (0, 0), detection_score := 1 }

/-- `farCar` after preprocessing with `time_lag = 1`. -/
def farCarExt : Det :=
  { farCar with ct := some (100, 0), tracking := some (0, 0), label_preds := some 2 }

/-- A car detection within the 3 m car gate of `birthTrk`. -/
def nearCar : Det :=
  { detection_name := "car", translation := (1, 0), velocity := (0, 0), detection_score := 1 }

/-- `nearCar` after preprocessing with `time_lag = 1`. -/
def nearCarExt : Det :=
  { nearCar with ct := some (1, 0), tracking := some (0, 0), label_preds := some 2 }

/-- The track records of the second steady-state frame of the witness session:
the far detection is born as id 2 and the old track is aged to age 2. -/
def farBornTrk : Det :=
  { farCar with
    ct := some (100, 0), tracking := some (0, 0), label_preds := some 2,
    tracking_id := some 2, age := some 1, active := some 1 }

/-- `birthTrk` after going unmatched once (aged, deactivated). -/
def agedTrk : Det := { birthTrk with age := some 2, active := some 0 }

/-- Session state after the two witness frames. -/
def afterSt2 : TrackerState :=
  { afterSt with id_count := 2, tracks := [farBornTrk, agedTrk] }

/-- Session configured with `max_age = 0` (the constructor accepts it). -/
def stZeroAge : TrackerState := { initState with max_age := 0 }


/-! ## Properties of the modelled greedy solver and counting helpers -/

theorem mem_insertBySq {y x : Nat × Nat × ℚ} :
    ∀ {l : List (Nat × Nat × ℚ)}, y ∈ insertBySq x l → y = x ∨ y ∈ l := by
  intro l
  induction l with
  | nil => simp [insertBySq]
  | cons a l ih =>
    simp only [insertBySq]
    split
    · intro h
      rcases List.mem_cons.1 h with h | h
      · exact Or.inl h
      · exact Or.inr h
    · intro h
      rcases List.mem_cons.1 h with h | h
      · exact Or.inr (List.mem_cons.2 (Or.inl h))
      · rcases ih h with h | h
        · exact Or.inl h
        · exact Or.inr (List.mem_cons.2 (Or.inr h))

theorem mem_sortBySq {y : Nat × Nat × ℚ} :
    ∀ {l : List (Nat × Nat × ℚ)}, y ∈ sortBySq l → y ∈ l := by
  intro l
  induction l with
  | nil => simp [sortBySq]
  | cons a l ih =>
    intro h
    rcases mem_insertBySq h with h | h
    · exact List.mem_cons.2 (Or.inl h)
    · exact List.mem_cons.2 (Or.inr (ih h))

theorem greedyPick_spec :
    ∀ (l : List (Nat × Nat × ℚ)) (ur uc : List Nat),
      (∀ p ∈ greedyPick l ur uc, (∃ c ∈ l, p = (c.1, c.2.1)) ∧ p.1 ∉ ur ∧ p.2 ∉ uc) ∧
      ((greedyPick l ur uc).map Prod.fst).Nodup ∧
      ((greedyPick l ur uc).map Prod.snd).Nodup := by
  intro l
  induction l with
  | nil => intro ur uc; simp [greedyPick]
  | cons c rest ih =>
    intro ur uc
    simp only [greedyPick]
    split
    · refine ⟨fun p hp => ?_, (ih ur uc).2.1, (ih ur uc).2.2⟩
      obtain ⟨⟨d, hd, hpd⟩, h1, h2⟩ := (ih ur uc).1 p hp
      exact ⟨⟨d, List.mem_cons.2 (Or.inr hd), hpd⟩, h1, h2⟩
    · next hcond =>
      push_neg at hcond
      obtain ⟨ih1, ih2, ih3⟩ := ih (c.1 :: ur) (c.2.1 :: uc)
      refine ⟨fun p hp => ?_, ?_, ?_⟩
      · rcases List.mem_cons.1 hp with h | h
        · subst h
          exact ⟨⟨c, List.mem_cons.2 (Or.inl rfl), rfl⟩, hcond.1, hcond.2⟩
        · obtain ⟨⟨d, hd, hpd⟩, h1, h2⟩ := ih1 p h
          exact ⟨⟨d, List.mem_cons.2 (Or.inr hd), hpd⟩,
            fun hm => h1 (List.mem_cons.2 (Or.inr hm)),
            fun hm => h2 (List.mem_cons.2 (Or.inr hm))⟩
      · rw [List.map_cons, List.nodup_cons]
        refine ⟨fun hm => ?_, ih2⟩
        obtain ⟨p, hp, hpe⟩ := List.mem_map.1 hm
        exact (ih1 p hp).2.1 (by rw [hpe]; exact List.mem_cons.2 (Or.inl rfl))
      · rw [List.map_cons, List.nodup_cons]
        refine ⟨fun hm => ?_, ih3⟩
        obtain ⟨p, hp, hpe⟩ := List.mem_map.1 hm
        exact (ih1 p hp).2.2 (by rw [hpe]; exact List.mem_cons.2 (Or.inl rfl))

theorem mem_greedyCells {N M : Nat} {cost : Nat → Nat → CostCell} {c : Nat × Nat × ℚ}
    (h : c ∈ greedyCells N M cost) :
    c.1 < N ∧ c.2.1 < M ∧ (cost c.1 c.2.1).invalid = false := by
  simp only [greedyCells, List.mem_flatMap, List.mem_filterMap, List.mem_range] at h
  obtain ⟨i, hi, j, hj, hc⟩ := h
  split at hc
  · exact absurd hc (by simp)
  · next hinv =>
    have := Option.some.inj hc
    subst this
    exact ⟨hi, hj, Bool.of_not_eq_true hinv⟩

theorem greedy_spec_solverOk : SolverOk greedy_assignment_spec := by
  intro N M cost
  obtain ⟨h1, h2, h3⟩ := greedyPick_spec (sortBySq (greedyCells N M cost)) [] []
  refine ⟨fun p hp => ?_, h2, h3⟩
  obtain ⟨⟨c, hc, hpc⟩, -, -⟩ := h1 p hp
  obtain ⟨hN, hM, -⟩ := mem_greedyCells (mem_sortBySq hc)
  rw [hpc]
  exact ⟨hN, hM⟩

theorem greedy_spec_gated : SolverGated greedy_assignment_spec := by
  intro N M cost p hp
  obtain ⟨h1, -, -⟩ := greedyPick_spec (sortBySq (greedyCells N M cost)) [] []
  obtain ⟨⟨c, hc, hpc⟩, -, -⟩ := h1 p hp
  obtain ⟨-, -, hvalid⟩ := mem_greedyCells (mem_sortBySq hc)
  rw [hpc]
  exact hvalid

theorem emptySolver_ok : SolverOk emptySolver := by
  intro N M cost
  simp [emptySolver]

theorem emptySolver_gated : SolverGated emptySolver := by
  intro N M cost p hp
  simp [emptySolver] at hp

theorem length_filter_pos_add_neg {α : Type} (l : List α) (p : α → Bool) :
    (l.filter p).length + (l.filter fun a => !p a).length = l.length := by
  induction l with
  | nil => simp
  | cons a l ih =>
    by_cases h : p a = true
    · simp [List.filter_cons, h, Nat.succ_add, ih]
    · simp only [Bool.not_eq_true] at h
      simp [List.filter_cons, h, ih]
      omega

theorem length_filter_not_mem :
    ∀ (N : Nat) (rows : List Nat), rows.Nodup → (∀ r ∈ rows, r < N) →
      ((List.range N).filter fun d => decide (d ∉ rows)).length + rows.length = N := by
  intro N
  induction N with
  | zero =>
    intro rows _ hb
    have : rows = [] := by
      cases rows with
      | nil => rfl
      | cons r rs => exact absurd (hb r (List.mem_cons.2 (Or.inl rfl))) (by omega)
    simp [this]
  | succ N ih =>
    intro rows hnd hb
    rw [List.range_succ, List.filter_append]
    by_cases hN : N ∈ rows
    · have hrows : ∀ d ∈ List.range N, (decide (d ∉ rows) : Bool) = decide (d ∉ rows.erase N) := by
        intro d hd
        have hdN : d ≠ N := by have := List.mem_range.1 hd; omega
        simp only [decide_eq_decide]
        rw [hnd.mem_erase_iff]
        constructor
        · intro h hc; exact h hc.2
        · intro h hc; exact h ⟨hdN, hc⟩
      rw [List.filter_congr hrows]
      have herased : (rows.erase N).Nodup := hnd.erase N
      have hbe : ∀ r ∈ rows.erase N, r < N := by
        intro r hr
        obtain ⟨hrN, hrm⟩ := hnd.mem_erase_iff.1 hr
        have := hb r hrm
        omega
      have hlen : (rows.erase N).length = rows.length - 1 := List.length_erase_of_mem hN
      have hpos : 0 < rows.length := List.length_pos_of_mem hN
      have := ih (rows.erase N) herased hbe
      have hNf : (List.filter (fun d => decide (d ∉ rows)) [N]).length = 0 := by
        simp [hN]
      rw [List.length_append, hNf]
      omega
    · have hbe : ∀ r ∈ rows, r < N := by
        intro r hr
        have h1 := hb r hr
        rcases Nat.lt_succ_iff_lt_or_eq.1 h1 with h | h
        · exact h
        · exact absurd (h ▸ hr) hN
      have hNf : (List.filter (fun d => decide (d ∉ rows)) [N]).length = 1 := by
        simp [hN]
      rw [List.length_append, hNf]
      have := ih rows hnd hbe
      omega

/-! ## Properties of the modelled assignment stage -/

theorem cp_model_eq_ok (lsa g : Solver) (st : TrackerState) (p1data p2data : List Det)
    (p1 p2 : List (ℚ × ℚ)) (hp : 0 < p1.length) :
    comparing_positions_model lsa g st p1data p2data p1 p2 =
      .ok (cpMatches lsa g st p1data p2data p1 p2,
           cpU1 lsa g st p1data p2data p1 p2,
           cpU2 lsa g st p1data p2data p1 p2) := by
  simp [comparing_positions_model, hp]

theorem cpFull_ok (lsa g : Solver) (hl : SolverOk lsa) (hg : SolverOk g)
    (st : TrackerState) (p1data p2data : List Det) (p1 p2 : List (ℚ × ℚ)) :
    (∀ p ∈ cpFull lsa g st p1data p2data p1 p2, p.1 < p2data.length ∧ p.2 < p1data.length) ∧
    ((cpFull lsa g st p1data p2data p1 p2).map Prod.fst).Nodup ∧
    ((cpFull lsa g st p1data p2data p1 p2).map Prod.snd).Nodup := by
  unfold cpFull
  split
  · exact hl p2data.length p1data.length (costMatrix p1data p2data p1 p2)
  · exact hg p2data.length p1data.length (costMatrix p1data p2data p1 p2)

theorem cpMatches_subset (lsa g : Solver) (st : TrackerState) (p1data p2data : List Det)
    (p1 p2 : List (ℚ × ℚ)) (m : Nat × Nat)
    (hm : m ∈ cpMatches lsa g st p1data p2data p1 p2) :
    m ∈ cpFull lsa g st p1data p2data p1 p2 := by
  unfold cpMatches at hm
  split at hm
  · exact (List.mem_filter.1 hm).1
  · exact hm

theorem hungDiscard_false_invalid {c : CostCell} (h : hungDiscard c = false) :
    c.invalid = false := by
  unfold hungDiscard at h
  exact (Bool.or_eq_false_iff.1 h).1

/-- C2 helper: a returned match always has a valid (non-gated) cost cell. -/
theorem cpMatches_valid (lsa g : Solver) (hgate : SolverGated g)
    (st : TrackerState) (p1data p2data : List Det) (p1 p2 : List (ℚ × ℚ)) (m : Nat × Nat)
    (hm : m ∈ cpMatches lsa g st p1data p2data p1 p2) :
    (costMatrix p1data p2data p1 p2 m.1 m.2).invalid = false := by
  unfold cpMatches at hm
  split at hm
  · have := (List.mem_filter.1 hm).2
    simp only [Bool.not_eq_true'] at this
    exact hungDiscard_false_invalid this
  · next hh =>
    have hmg : m ∈ cpFull lsa g st p1data p2data p1 p2 := hm
    unfold cpFull at hmg
    rw [if_neg hh] at hmg
    exact hgate p2data.length p1data.length (costMatrix p1data p2data p1 p2) m hmg

/-- C2: every pair returned by the assignment stage satisfies the gating
condition: indices in range, the detection's class label equals the track's
class label, and the (squared) distance between the compared positions is
within the detection class's (squared) velocity-error threshold. -/
theorem c2_matching_admissibility (lsa g : Solver) (hl : SolverOk lsa) (hg : SolverOk g)
    (hgate : SolverGated g) (st : TrackerState) (p1data p2data : List Det)
    (p1 p2 : List (ℚ × ℚ)) (ms : List (Nat × Nat)) (u1 u2 : List Nat)
    (h : comparing_positions_model lsa g st p1data p2data p1 p2 = .ok (ms, u1, u2)) :
    ∀ m ∈ ms, m.1 < p2data.length ∧ m.2 < p1data.length ∧
      (p2data.getD m.1 defaultDet).label_preds.getD 0 =
        (p1data.getD m.2 defaultDet).label_preds.getD 0 ∧
      sqDist (p2.getD m.1 (0, 0)) (p1.getD m.2 (0, 0)) ≤
        velocity_error (p2data.getD m.1 defaultDet).detection_name ^ 2 := by
  intro m hm
  by_cases hp : 0 < p1.length
  · rw [cp_model_eq_ok lsa g st p1data p2data p1 p2 hp] at h
    have h' := Except.ok.inj h
    have hmm : m ∈ cpMatches lsa g st p1data p2data p1 p2 := by
      rw [show cpMatches lsa g st p1data p2data p1 p2 = ms from congrArg Prod.fst h']
      exact hm
    have hfull := cpMatches_subset lsa g st p1data p2data p1 p2 m hmm
    have hbounds := ((cpFull_ok lsa g hl hg st p1data p2data p1 p2).1) m hfull
    have hvalid := cpMatches_valid lsa g hgate st p1data p2data p1 p2 m hmm
    unfold costMatrix costCell at hvalid
    simp only [Bool.or_eq_false_iff, decide_eq_false_iff_not, not_lt, ne_eq,
      Decidable.not_not] at hvalid
    exact ⟨hbounds.1, hbounds.2, hvalid.2, hvalid.1⟩
  · simp only [comparing_positions_model, if_neg hp] at h
    split at h
    · have h' := Except.ok.inj h
      have : ms = [] := (congrArg Prod.fst h').symm
      rw [this] at hm
      cases hm
    · cases h

/-- C3 (amended) helper: length bookkeeping for the unmatched-detection side. -/
theorem cpU2base_length (lsa g : Solver) (hl : SolverOk lsa) (hg : SolverOk g)
    (st : TrackerState) (p1data p2data : List Det) (p1 p2 : List (ℚ × ℚ))
    (e2 : p2.length = p2data.length) :
    (cpU2base lsa g st p1data p2data p1 p2).length +
      (cpFull lsa g st p1data p2data p1 p2).length = p2.length := by
  have hok := cpFull_ok lsa g hl hg st p1data p2data p1 p2
  have := length_filter_not_mem p2.length
    ((cpFull lsa g st p1data p2data p1 p2).map Prod.fst)
    hok.2.1
    (by
      intro r hr
      obtain ⟨q, hq, hqe⟩ := List.mem_map.1 hr
      rw [← hqe, e2]
      exact ((hok.1 q hq).1))
  rw [List.length_map] at this
  exact this

theorem cpU1_length (lsa g : Solver) (hl : SolverOk lsa) (hg : SolverOk g)
    (st : TrackerState) (p1data p2data : List Det) (p1 p2 : List (ℚ × ℚ))
    (e1 : p1.length = p1data.length) :
    (cpU1 lsa g st p1data p2data p1 p2).length +
      (cpFull lsa g st p1data p2data p1 p2).length = p1.length := by
  have hok := cpFull_ok lsa g hl hg st p1data p2data p1 p2
  have := length_filter_not_mem p1.length
    ((cpFull lsa g st p1data p2data p1 p2).map Prod.snd)
    hok.2.2
    (by
      intro r hr
      obtain ⟨q, hq, hqe⟩ := List.mem_map.1 hr
      rw [← hqe, e1]
      exact ((hok.1 q hq).2))
  rw [List.length_map] at this
  exact this

/-- C3 (amended): the detection indices are partitioned exhaustively
(`|matches| + |unmatched_detections| = N` in both modes), but on the track
side the partition only holds up to the pairs discarded by the hungarian
sentinel filter: `|matches| + |unmatched_tracks| + |discarded| = M`, and in
greedy mode nothing is discarded. -/
theorem c3_exhaustive_partition_amended (lsa g : Solver) (hl : SolverOk lsa)
    (hg : SolverOk g) (st : TrackerState) (p1data p2data : List Det)
    (p1 p2 : List (ℚ × ℚ)) (ms : List (Nat × Nat)) (u1 u2 : List Nat)
    (e1 : p1.length = p1data.length) (e2 : p2.length = p2data.length)
    (h : comparing_positions_model lsa g st p1data p2data p1 p2 = .ok (ms, u1, u2)) :
    ms.length + u2.length = p2data.length ∧
    ∃ k, ms.length + u1.length + k = p1data.length ∧ (st.hungarian = false → k = 0) := by
  by_cases hp : 0 < p1.length
  · rw [cp_model_eq_ok lsa g st p1data p2data p1 p2 hp] at h
    have h' := Except.ok.inj h
    have hms : cpMatches lsa g st p1data p2data p1 p2 = ms := congrArg Prod.fst h'
    have hu1 : cpU1 lsa g st p1data p2data p1 p2 = u1 :=
      congrArg Prod.fst (congrArg Prod.snd h')
    have hu2 : cpU2 lsa g st p1data p2data p1 p2 = u2 :=
      congrArg Prod.snd (congrArg Prod.snd h')
    have hbase := cpU2base_length lsa g hl hg st p1data p2data p1 p2 e2
    have htrk := cpU1_length lsa g hl hg st p1data p2data p1 p2 e1
    have hsplit := length_filter_pos_add_neg
      (cpFull lsa g st p1data p2data p1 p2)
      (fun m => hungDiscard (costMatrix p1data p2data p1 p2 m.1 m.2))
    by_cases hh : st.hungarian = true
    · have hmseq : ms = (cpFull lsa g st p1data p2data p1 p2).filter
          (fun m => !hungDiscard (costMatrix p1data p2data p1 p2 m.1 m.2)) := by
        rw [← hms]; unfold cpMatches; rw [if_pos hh]
      have hu2eq : u2 = cpU2base lsa g st p1data p2data p1 p2 ++
          (cpDiscards lsa g st p1data p2data p1 p2).map Prod.fst := by
        rw [← hu2]; unfold cpU2; rw [if_pos hh]
      have hu1eq : u1 = cpU1 lsa g st p1data p2data p1 p2 := hu1.symm
      constructor
      · rw [hmseq, hu2eq, List.length_append, List.length_map]
        unfold cpDiscards
        omega
      · refine ⟨(cpDiscards lsa g st p1data p2data p1 p2).length, ?_, ?_⟩
        · rw [hmseq, hu1eq]
          unfold cpDiscards
          rw [e1] at htrk
          omega
        · intro hf; rw [hh] at hf; cases hf
    · have hmseq : ms = cpFull lsa g st p1data p2data p1 p2 := by
        rw [← hms]; unfold cpMatches; rw [if_neg hh]
      have hu2eq : u2 = cpU2base lsa g st p1data p2data p1 p2 := by
        rw [← hu2]; unfold cpU2; rw [if_neg hh]
      refine ⟨?_, ⟨0, ?_, fun _ => rfl⟩⟩
      · rw [hmseq, hu2eq, ← e2]
        omega
      · rw [hmseq, ← hu1, ← e1]
        omega
  · simp only [comparing_positions_model, if_neg hp] at h
    split at h
    · next h0 =>
      have h' := Except.ok.inj h
      have hms : ms = [] := (congrArg Prod.fst h').symm
      have hu1 : u1 = [] := (congrArg Prod.fst (congrArg Prod.snd h')).symm
      have hu2 : u2 = List.range p2.length :=
        (congrArg Prod.snd (congrArg Prod.snd h')).symm
      refine ⟨?_, ⟨0, ?_, fun _ => rfl⟩⟩
      · rw [hms, hu2, List.length_range, List.length_nil, ← e2]
        omega
      · rw [hms, hu1]
        simpa using h0.symm
    · cases h

/-! ## Structure of the per-frame step -/

theorem extendDet_translation (tl : ℚ) (d : Det) :
    (extendDet tl d).translation = d.translation := rfl

theorem extendDet_velocity (tl : ℚ) (d : Det) :
    (extendDet tl d).velocity = d.velocity := rfl

theorem extendDet_score (tl : ℚ) (d : Det) :
    (extendDet tl d).detection_score = d.detection_score := rfl

theorem mem_preprocess {tl : ℚ} {results : List Det} {t : Det}
    (h : t ∈ preprocess tl results) : ∃ d ∈ results, t = extendDet tl d := by
  unfold preprocess at h
  obtain ⟨d, hd, hde⟩ := List.mem_filterMap.1 h
  split at hde
  · exact ⟨d, hd, (Option.some.inj hde).symm⟩
  · cases hde

theorem getD_mem {l : List Det} {i : Nat} (h : i < l.length) :
    l.getD i defaultDet ∈ l := by
  rw [List.getD_eq_getElem l defaultDet h]
  exact List.getElem_mem h

theorem detsOf_length (temp : List Det) : (detsOf temp).length = temp.length := by
  unfold detsOf
  split <;> rw [List.length_map]

theorem trkPos_length (st : TrackerState) : (trkPos st).length = st.tracks.length := by
  unfold trkPos
  rw [List.length_map]

theorem decayTrack_tid (st : TrackerState) (t : Det) :
    (decayTrack st t).tracking_id = t.tracking_id := by
  unfold decayTrack
  split <;> rfl

theorem decayTrack_age (st : TrackerState) (t : Det) :
    (decayTrack st t).age = t.age := by
  unfold decayTrack
  split <;> rfl

theorem ageTrack_tid (st : TrackerState) (t : Det) :
    (ageTrack st t).tracking_id = t.tracking_id := by
  unfold ageTrack
  split <;> rfl

theorem ageTrack_age (st : TrackerState) (t : Det) :
    (ageTrack st t).age = some (t.age.getD 0 + 1) := by
  unfold ageTrack
  split <;> rfl

theorem ageTrack_score (st : TrackerState) (t : Det) :
    (ageTrack st t).detection_score = t.detection_score := by
  unfold ageTrack
  split <;> rfl

theorem survives_iff {st : TrackerState} {t : Det} (h : survives st t = true) :
    t.age.getD 0 < st.max_age ∧ st.del_th < t.detection_score := by
  unfold survives at h
  rw [Bool.and_eq_true] at h
  exact ⟨of_decide_eq_true h.1, of_decide_eq_true h.2⟩

theorem mem_birthAll {st : TrackerState} :
    ∀ {c : Nat} {temp : List Det} {t : Det}, t ∈ birthAll st c temp →
      ∃ d ∈ temp, ∃ n, c < n ∧ n ≤ c + temp.length ∧
        t = { d with tracking_id := some n, age := some 1, active := some st.min_hits } := by
  intro c temp
  induction temp generalizing c with
  | nil => intro t ht; cases ht
  | cons d rest ih =>
    intro t ht
    rw [birthAll] at ht
    rcases List.mem_cons.1 ht with h | h
    · exact ⟨d, List.mem_cons.2 (Or.inl rfl), c + 1, by omega, by simp, h⟩
    · obtain ⟨d', hd', n, h1, h2, h3⟩ := ih h
      exact ⟨d', List.mem_cons.2 (Or.inr hd'), n, by omega, by simp at h2 ⊢; omega, h3⟩

theorem mem_birthOut {st : TrackerState} {temp : List Det} :
    ∀ {c : Nat} {u2 : List Nat} {t : Det}, t ∈ birthOut st temp c u2 →
      ∃ i ∈ u2, ∃ n, c < n ∧ n ≤ c + u2.length ∧
        t = { temp.getD i defaultDet with
                tracking_id := some n, age := some 1,
                active := some (if st.det_th < (temp.getD i defaultDet).detection_score
                  then 1 else 0) } := by
  intro c u2
  induction u2 generalizing c with
  | nil => intro t ht; cases ht
  | cons i rest ih =>
    intro t ht
    rw [birthOut] at ht
    rcases List.mem_cons.1 ht with h | h
    · exact ⟨i, List.mem_cons.2 (Or.inl rfl), c + 1, by omega, by simp, h⟩
    · obtain ⟨i', hi', n, h1, h2, h3⟩ := ih h
      exact ⟨i', List.mem_cons.2 (Or.inr hi'), n, by omega, by simp at h2 ⊢; omega, h3⟩

theorem birthOut_get (st : TrackerState) (temp : List Det) :
    ∀ (u2 : List Nat) (c k i : Nat), u2.get? k = some i →
      { temp.getD i defaultDet with
          tracking_id := some (c + k + 1), age := some 1,
          active := some (if st.det_th < (temp.getD i defaultDet).detection_score
            then 1 else 0) } ∈ birthOut st temp c u2 := by
  intro u2
  induction u2 with
  | nil => intro c k i h; cases h
  | cons j rest ih =>
    intro c k i h
    cases k with
    | zero =>
      have hj : j = i := Option.some.inj h
      subst hj
      rw [birthOut]
      exact List.mem_cons.2 (Or.inl rfl)
    | succ k' =>
      have hrec := ih (c + 1) k' i (by simpa using h)
      rw [birthOut]
      refine List.mem_cons.2 (Or.inr ?_)
      have harith : c + (k' + 1) + 1 = c + 1 + k' + 1 := by omega
      rw [harith]
      exact hrec

theorem mem_matchOut {st : TrackerState} {temp : List Det} {matched : List (Nat × Nat)}
    {t : Det} (h : t ∈ matchOut st temp matched) :
    ∃ m ∈ matched, t = { temp.getD m.1 defaultDet with
        tracking_id := (st.tracks.getD m.2 defaultDet).tracking_id,
        age := some 1,
        active := some ((st.tracks.getD m.2 defaultDet).active.getD 0 + 1) } := by
  unfold matchOut at h
  obtain ⟨m, hm, he⟩ := List.mem_map.1 h
  exact ⟨m, hm, he.symm⟩

theorem mem_agedOut {st : TrackerState} {u1 : List Nat} {t : Det}
    (h : t ∈ agedOut st u1) :
    ∃ x, survives st x = true ∧ t = ageTrack st x ∧
      ∃ i ∈ u1, x = decayTrack st (st.tracks.getD i defaultDet) := by
  unfold agedOut at h
  obtain ⟨x, hx, hxe⟩ := List.mem_map.1 h
  obtain ⟨hxm, hxs⟩ := List.mem_filter.1 hx
  obtain ⟨i, hi, hie⟩ := List.mem_map.1 hxm
  exact ⟨x, hxs, hxe.symm, i, hi, hie.symm⟩

/-- Inversion principle for a successful frame step: the three source branches
(empty raw frame, first frame, steady state). -/
theorem step_ok_cases (cp : CPFun) (st : TrackerState) (results : List Det) (tl : ℚ)
    (ret : List Det) (st' : TrackerState)
    (h : step_centertrack cp st results tl = .ok (ret, st')) :
    (ret = [] ∧ st' = { st with tracks := [] }) ∨
    (st.tracks.length = 0 ∧ ret = birthAll st st.id_count (preprocess tl results) ∧
      st' = { st with id_count := st.id_count + (preprocess tl results).length,
                      tracks := birthAll st st.id_count (preprocess tl results) }) ∨
    (∃ matched u1 u2, st.tracks.length ≠ 0 ∧
      cp st st.tracks (preprocess tl results) (trkPos st) (detsOf (preprocess tl results)) =
        .ok (matched, u1, u2) ∧
      ret = matchOut st (preprocess tl results) matched ++
        birthOut st (preprocess tl results) st.id_count u2 ++ agedOut st u1 ∧
      st' = { st with id_count := st.id_count + u2.length,
                      tracks := matchOut st (preprocess tl results) matched ++
                        birthOut st (preprocess tl results) st.id_count u2 ++
                        agedOut st u1 }) := by
  unfold step_centertrack at h
  split at h
  · left
    have h' := Except.ok.inj h
    exact ⟨(congrArg Prod.fst h').symm, (congrArg Prod.snd h').symm⟩
  · split at h
    · next h2 =>
      right; left
      have h' := Except.ok.inj h
      exact ⟨h2, (congrArg Prod.fst h').symm, (congrArg Prod.snd h').symm⟩
    · next h2 =>
      split at h
      · cases h
      · right; right
        rcases hcp : cp st st.tracks (preprocess tl results) (trkPos st)
            (detsOf (preprocess tl results)) with e | trip
        · rw [hcp] at h; cases h
        · obtain ⟨m, u1, u2⟩ := trip
          rw [hcp] at h
          have h' := Except.ok.inj h
          exact ⟨m, u1, u2, h2, rfl, (congrArg Prod.fst h').symm,
            (congrArg Prod.snd h').symm⟩

/-- C5 (amended): provided `max_age ≥ 1`, every track record emitted by a frame
step has `age ≤ max_age`, and every emitted record that was aged (age ≥ 2,
i.e. an unmatched survivor) has confidence strictly above the deletion
threshold.  This holds for any assignment stage `cp`. -/
theorem c5_deletion_guarantee_amended (cp : CPFun) (st : TrackerState)
    (results : List Det) (tl : ℚ) (ret : List Det) (st' : TrackerState)
    (hmax : 1 ≤ st.max_age)
    (h : step_centertrack cp st results tl = .ok (ret, st')) :
    ∀ t ∈ ret, t.age.getD 0 ≤ st.max_age ∧
      (2 ≤ t.age.getD 0 → st.del_th < t.detection_score) := by
  intro t ht
  rcases step_ok_cases cp st results tl ret st' h with
    ⟨hret, -⟩ | ⟨-, hret, -⟩ | ⟨m, u1, u2, -, -, hret, -⟩
  · rw [hret] at ht; cases ht
  · rw [hret] at ht
    obtain ⟨d, -, n, -, -, hte⟩ := mem_birthAll ht
    rw [hte]
    refine ⟨by simpa using hmax, ?_⟩
    intro h2
    simp at h2
  · rw [hret] at ht
    rcases List.mem_append.1 ht with hab | hc
    · rcases List.mem_append.1 hab with ha | hb
      · obtain ⟨m', -, hte⟩ := mem_matchOut ha
        rw [hte]
        refine ⟨by simpa using hmax, ?_⟩
        intro h2
        simp at h2
      · obtain ⟨i, -, n, -, -, hte⟩ := mem_birthOut hb
        rw [hte]
        refine ⟨by simpa using hmax, ?_⟩
        intro h2
        simp at h2
    · obtain ⟨x, hs, hte, -⟩ := mem_agedOut hc
      obtain ⟨hlt, hscore⟩ := survives_iff hs
      rw [hte, ageTrack_age]
      constructor
      · simp only [Option.getD_some]
        omega
      · intro _
        rw [ageTrack_score]
        exact hscore

theorem cpU1_mem {lsa g : Solver} {st : TrackerState} {p1data p2data : List Det}
    {p1 p2 : List (ℚ × ℚ)} {i : Nat} (h : i ∈ cpU1 lsa g st p1data p2data p1 p2) :
    i < p1.length ∧ i ∉ (cpFull lsa g st p1data p2data p1 p2).map Prod.snd := by
  unfold cpU1 at h
  obtain ⟨h1, h2⟩ := List.mem_filter.1 h
  exact ⟨List.mem_range.1 h1, of_decide_eq_true h2⟩

theorem cpU2_mem (lsa g : Solver) (hl : SolverOk lsa) (hg : SolverOk g)
    (st : TrackerState) (p1data p2data : List Det) (p1 p2 : List (ℚ × ℚ))
    (e2 : p2.length = p2data.length) {i : Nat}
    (h : i ∈ cpU2 lsa g st p1data p2data p1 p2) : i < p2data.length := by
  unfold cpU2 at h
  split at h
  · rcases List.mem_append.1 h with h | h
    · unfold cpU2base at h
      exact e2 ▸ List.mem_range.1 (List.mem_filter.1 h).1
    · obtain ⟨m, hm, hme⟩ := List.mem_map.1 h
      unfold cpDiscards at hm
      have hfull := (List.mem_filter.1 hm).1
      have := ((cpFull_ok lsa g hl hg st p1data p2data p1 p2).1 m hfull).1
      exact hme ▸ this
  · unfold cpU2base at h
    exact e2 ▸ List.mem_range.1 (List.mem_filter.1 h).1

/-- C7: whenever the assignment stage of a steady-state frame leaves detection
index `i` unmatched at position `k` of the unmatched list, the frame output
contains a newly born track over that detection with the fresh identity
`id_count + k + 1`, `age = 1`, and `active = 1` iff its confidence strictly
exceeds the detection threshold; the fresh identity differs from every
previously assigned one. -/
theorem c7_birth_fields (cp : CPFun) (st : TrackerState) (results : List Det) (tl : ℚ)
    (matched : List (Nat × Nat)) (u1 u2 : List Nat) (k i : Nat)
    (hM : ¬st.tracks.length = 0)
    (hres : results.isEmpty = false)
    (htemp : (preprocess tl results).isEmpty = false)
    (hcp : cp st st.tracks (preprocess tl results) (trkPos st)
      (detsOf (preprocess tl results)) = .ok (matched, u1, u2))
    (hki : u2.get? k = some i)
    (hInv : ∀ p ∈ st.tracks, ∀ np, p.tracking_id = some np → np ≤ st.id_count) :
    ∃ ret st', step_centertrack cp st results tl = .ok (ret, st') ∧
      ∃ t ∈ ret, t.tracking_id = some (st.id_count + k + 1) ∧ t.age = some 1 ∧
        t.active = some (if st.det_th <
            ((preprocess tl results).getD i defaultDet).detection_score then 1 else 0) ∧
        ∀ p ∈ st.tracks, p.tracking_id ≠ some (st.id_count + k + 1) := by
  have hstep : step_centertrack cp st results tl =
      .ok (matchOut st (preprocess tl results) matched ++
             birthOut st (preprocess tl results) st.id_count u2 ++ agedOut st u1,
           { st with id_count := st.id_count + u2.length,
                     tracks := matchOut st (preprocess tl results) matched ++
                       birthOut st (preprocess tl results) st.id_count u2 ++
                       agedOut st u1 }) := by
    unfold step_centertrack
    rw [if_neg (by simp [hres]), if_neg hM, if_neg (by simp [htemp]), hcp]
  refine ⟨_, _, hstep, ?_⟩
  refine ⟨{ (preprocess tl results).getD i defaultDet with
      tracking_id := some (st.id_count + k + 1), age := some 1,
      active := some (if st.det_th <
        ((preprocess tl results).getD i defaultDet).detection_score then 1 else 0) },
    ?_, rfl, rfl, rfl, ?_⟩
  · exact List.mem_append.2 (Or.inl (List.mem_append.2 (Or.inr
      (birthOut_get st (preprocess tl results) u2 st.id_count k i hki))))
  · intro p hp hpe
    have := hInv p hp (st.id_count + k + 1) hpe
    omega

/-- C10 (amended): in point-offset mode the records the frame step builds from
the current frame's detections (the `age = 1` records: matches and births)
preserve the supplied translation, velocity and confidence score; the tracker
only adds fields to them. -/
theorem c10_readonly_amended (lsa g : Solver) (hl : SolverOk lsa) (hg : SolverOk g)
    (st : TrackerState) (results : List Det) (tl : ℚ) (ret : List Det)
    (st' : TrackerState)
    (hages : ∀ t ∈ st.tracks, 1 ≤ t.age.getD 0)
    (h : step_centertrack (comparing_positions_model lsa g) st results tl =
      .ok (ret, st')) :
    ∀ t ∈ ret, t.age = some 1 →
      ∃ d ∈ results, t.translation = d.translation ∧ t.velocity = d.velocity ∧
        t.detection_score = d.detection_score := by
  intro t ht hage1
  rcases step_ok_cases _ st results tl ret st' h with
    ⟨hret, -⟩ | ⟨-, hret, -⟩ | ⟨m, u1, u2, hM, hcp, hret, -⟩
  · rw [hret] at ht; cases ht
  · rw [hret] at ht
    obtain ⟨d', hd', n, -, -, hte⟩ := mem_birthAll ht
    obtain ⟨d, hd, hde⟩ := mem_preprocess hd'
    refine ⟨d, hd, ?_⟩
    rw [hte, hde]
    exact ⟨rfl, rfl, rfl⟩
  · have hp : 0 < (trkPos st).length := by
      rw [trkPos_length]; omega
    rw [cp_model_eq_ok lsa g st st.tracks (preprocess tl results) (trkPos st)
      (detsOf (preprocess tl results)) hp] at hcp
    have h' := Except.ok.inj hcp
    have hm_eq : cpMatches lsa g st st.tracks (preprocess tl results) (trkPos st)
        (detsOf (preprocess tl results)) = m := congrArg Prod.fst h'
    have hu1_eq : cpU1 lsa g st st.tracks (preprocess tl results) (trkPos st)
        (detsOf (preprocess tl results)) = u1 :=
      congrArg Prod.fst (congrArg Prod.snd h')
    have hu2_eq : cpU2 lsa g st st.tracks (preprocess tl results) (trkPos st)
        (detsOf (preprocess tl results)) = u2 :=
      congrArg Prod.snd (congrArg Prod.snd h')
    rw [hret] at ht
    rcases List.mem_append.1 ht with hab | hc
    · rcases List.mem_append.1 hab with ha | hb
      · obtain ⟨mm, hmm, hte⟩ := mem_matchOut ha
        have hmm' : mm ∈ cpMatches lsa g st st.tracks (preprocess tl results)
            (trkPos st) (detsOf (preprocess tl results)) := hm_eq ▸ hmm
        have hfull := cpMatches_subset lsa g st st.tracks (preprocess tl results)
          (trkPos st) (detsOf (preprocess tl results)) mm hmm'
        have hb1 := ((cpFull_ok lsa g hl hg st st.tracks (preprocess tl results)
          (trkPos st) (detsOf (preprocess tl results))).1 mm hfull).1
        obtain ⟨d, hd, hde⟩ := mem_preprocess (getD_mem hb1)
        refine ⟨d, hd, ?_⟩
        rw [hte, hde]
        exact ⟨rfl, rfl, rfl⟩
      · obtain ⟨i, hi, n, -, -, hte⟩ := mem_birthOut hb
        have hi' : i ∈ cpU2 lsa g st st.tracks (preprocess tl results) (trkPos st)
            (detsOf (preprocess tl results)) := hu2_eq ▸ hi
        have hib := cpU2_mem lsa g hl hg st st.tracks (preprocess tl results)
          (trkPos st) (detsOf (preprocess tl results))
          (detsOf_length (preprocess tl results)) hi'
        obtain ⟨d, hd, hde⟩ := mem_preprocess (getD_mem hib)
        refine ⟨d, hd, ?_⟩
        rw [hte, hde]
        exact ⟨rfl, rfl, rfl⟩
    · obtain ⟨x, hs, hte, i, hi, hxe⟩ := mem_agedOut hc
      have hi' : i ∈ cpU1 lsa g st st.tracks (preprocess tl results) (trkPos st)
          (detsOf (preprocess tl results)) := hu1_eq ▸ hi
      have hib : i < st.tracks.length := by
        have := (cpU1_mem hi').1
        rwa [trkPos_length] at this
      have h1 := hages _ (getD_mem hib)
      rw [hte, ageTrack_age] at hage1
      have h2 : x.age.getD 0 + 1 = 1 := Option.some.inj hage1
      rw [hxe, decayTrack_age] at h2
      omega

/-! ## Identity bookkeeping -/

theorem tid_getD_inj (tracks : List Det)
    (hN : (tracks.map fun t => t.tracking_id).Nodup) {i j : Nat}
    (hi : i < tracks.length) (hj : j < tracks.length)
    (h : (tracks.getD i defaultDet).tracking_id =
      (tracks.getD j defaultDet).tracking_id) : i = j := by
  rw [List.getD_eq_getElem tracks defaultDet hi,
    List.getD_eq_getElem tracks defaultDet hj] at h
  have hi' : i < (tracks.map fun t => t.tracking_id).length := by
    rw [List.length_map]; exact hi
  have hj' : j < (tracks.map fun t => t.tracking_id).length := by
    rw [List.length_map]; exact hj
  have hmap : (tracks.map fun t => t.tracking_id).get ⟨i, hi'⟩ =
      (tracks.map fun t => t.tracking_id).get ⟨j, hj'⟩ := by
    simp only [List.get_eq_getElem, List.getElem_map]
    exact h
  have := (List.Nodup.get_inj_iff hN).1 hmap
  exact congrArg Fin.val this

theorem nodup_tids_map (tracks : List Det)
    (hN : (tracks.map fun t => t.tracking_id).Nodup)
    (idxs : List Nat) (hI : idxs.Nodup) (hb : ∀ i ∈ idxs, i < tracks.length) :
    (idxs.map fun i => (tracks.getD i defaultDet).tracking_id).Nodup :=
  List.Nodup.map_on
    (fun i hi j hj he => tid_getD_inj tracks hN (hb i hi) (hb j hj) he) hI

theorem disjoint_tids_map (tracks : List Det)
    (hN : (tracks.map fun t => t.tracking_id).Nodup)
    (idxs1 idxs2 : List Nat)
    (hb1 : ∀ i ∈ idxs1, i < tracks.length) (hb2 : ∀ i ∈ idxs2, i < tracks.length)
    (hdisj : ∀ i ∈ idxs1, i ∉ idxs2) :
    (idxs1.map fun i => (tracks.getD i defaultDet).tracking_id).Disjoint
      (idxs2.map fun i => (tracks.getD i defaultDet).tracking_id) := by
  intro x hx1 hx2
  obtain ⟨i1, hi1, he1⟩ := List.mem_map.1 hx1
  obtain ⟨i2, hi2, he2⟩ := List.mem_map.1 hx2
  have : i1 = i2 :=
    tid_getD_inj tracks hN (hb1 i1 hi1) (hb2 i2 hi2) (he1.trans he2.symm)
  exact hdisj i1 hi1 (this ▸ hi2)

theorem matchOut_tids (st : TrackerState) (temp : List Det)
    (matched : List (Nat × Nat)) :
    (matchOut st temp matched).map (fun t => t.tracking_id) =
      (matched.map Prod.snd).map fun j => (st.tracks.getD j defaultDet).tracking_id := by
  unfold matchOut
  rw [List.map_map, List.map_map]
  rfl

theorem birthOut_tid_fresh {st : TrackerState} {temp : List Det} {c : Nat}
    {u2 : List Nat} {t : Det} (ht : t ∈ birthOut st temp c u2) :
    ∃ n, t.tracking_id = some n ∧ c < n ∧ n ≤ c + u2.length := by
  obtain ⟨i, -, n, h1, h2, hte⟩ := mem_birthOut ht
  exact ⟨n, by rw [hte], h1, h2⟩

theorem birthOut_tids_nodup (st : TrackerState) (temp : List Det) :
    ∀ (c : Nat) (u2 : List Nat),
      ((birthOut st temp c u2).map fun t => t.tracking_id).Nodup := by
  intro c u2
  induction u2 generalizing c with
  | nil => exact List.nodup_nil
  | cons i rest ih =>
    rw [birthOut, List.map_cons, List.nodup_cons]
    refine ⟨fun hmem => ?_, ih (c + 1)⟩
    obtain ⟨t, ht, hte⟩ := List.mem_map.1 hmem
    obtain ⟨n, hn, h1, -⟩ := birthOut_tid_fresh ht
    rw [hn] at hte
    have : n = c + 1 := Option.some.inj hte
    omega

theorem birthAll_tid_fresh {st : TrackerState} {c : Nat} {temp : List Det} {t : Det}
    (ht : t ∈ birthAll st c temp) :
    ∃ n, t.tracking_id = some n ∧ c < n ∧ n ≤ c + temp.length := by
  obtain ⟨d, -, n, h1, h2, hte⟩ := mem_birthAll ht
  exact ⟨n, by rw [hte], h1, h2⟩

theorem birthAll_tids_nodup (st : TrackerState) :
    ∀ (c : Nat) (temp : List Det),
      ((birthAll st c temp).map fun t => t.tracking_id).Nodup := by
  intro c temp
  induction temp generalizing c with
  | nil => exact List.nodup_nil
  | cons d rest ih =>
    rw [birthAll, List.map_cons, List.nodup_cons]
    refine ⟨fun hmem => ?_, ih (c + 1)⟩
    obtain ⟨t, ht, hte⟩ := List.mem_map.1 hmem
    obtain ⟨n, hn, h1, -⟩ := birthAll_tid_fresh ht
    rw [hn] at hte
    have : n = c + 1 := Option.some.inj hte
    omega

theorem agedOut_tids_sublist (st : TrackerState) (u1 : List Nat) :
    ((agedOut st u1).map fun t => t.tracking_id).Sublist
      (u1.map fun i => (st.tracks.getD i defaultDet).tracking_id) := by
  unfold agedOut
  rw [List.map_map]
  have h1 : ((u1.map fun i => decayTrack st (st.tracks.getD i defaultDet)).filter
        (survives st)).map ((fun t : Det => t.tracking_id) ∘ ageTrack st) =
      ((u1.map fun i => decayTrack st (st.tracks.getD i defaultDet)).filter
        (survives st)).map (fun t : Det => t.tracking_id) :=
    List.map_congr_left fun x _ => ageTrack_tid st x
  rw [h1]
  have h2 := List.Sublist.map (fun t : Det => t.tracking_id)
    (List.filter_sublist
      (l := u1.map fun i => decayTrack st (st.tracks.getD i defaultDet))
      (p := survives st))
  rw [List.map_map] at h2
  have h3 : u1.map ((fun t : Det => t.tracking_id) ∘
        fun i => decayTrack st (st.tracks.getD i defaultDet)) =
      u1.map fun i => (st.tracks.getD i defaultDet).tracking_id :=
    List.map_congr_left fun i _ => decayTrack_tid st _
  rw [h3] at h2
  exact h2

theorem agedOut_tid_mem {st : TrackerState} {u1 : List Nat} {t : Det}
    (ht : t ∈ agedOut st u1) :
    ∃ i ∈ u1, t.tracking_id = (st.tracks.getD i defaultDet).tracking_id := by
  obtain ⟨x, -, hte, i, hi, hxe⟩ := mem_agedOut ht
  refine ⟨i, hi, ?_⟩
  rw [hte, ageTrack_tid, hxe, decayTrack_tid]

theorem cpMatches_sublist (lsa g : Solver) (st : TrackerState)
    (p1data p2data : List Det) (p1 p2 : List (ℚ × ℚ)) :
    (cpMatches lsa g st p1data p2data p1 p2).Sublist
      (cpFull lsa g st p1data p2data p1 p2) := by
  unfold cpMatches
  split
  · exact List.filter_sublist _
  · exact List.Sublist.refl _

theorem cpU1_nodup (lsa g : Solver) (st : TrackerState) (p1data p2data : List Det)
    (p1 p2 : List (ℚ × ℚ)) : (cpU1 lsa g st p1data p2data p1 p2).Nodup :=
  (List.nodup_range _).filter _

/-- One frame step of the modelled tracker preserves the identity invariant:
identities stay pairwise distinct, positive and bounded by the counter, the
counter is monotone, and every identity in the new state is either an old
identity or strictly fresh (above the old counter). -/
theorem step_model_ids (lsa g : Solver) (hl : SolverOk lsa) (hg : SolverOk g)
    (st : TrackerState) (results : List Det) (tl : ℚ) (ret : List Det)
    (st' : TrackerState) (hInv : IdsOk st)
    (h : step_centertrack (comparing_positions_model lsa g) st results tl =
      .ok (ret, st')) :
    IdsOk st' ∧ st.id_count ≤ st'.id_count ∧
      ∀ t ∈ st'.tracks, t.tracking_id ∈ st.tracks.map (fun p => p.tracking_id) ∨
        ∃ n, t.tracking_id = some n ∧ st.id_count < n := by
  rcases step_ok_cases _ st results tl ret st' h with
    ⟨-, hst'⟩ | ⟨-, -, hst'⟩ | ⟨m, u1, u2, hM, hcp, -, hst'⟩
  · subst hst'
    refine ⟨⟨List.nodup_nil, ?_⟩, Nat.le_refl _, ?_⟩
    · intro t ht; cases ht
    · intro t ht; cases ht
  · subst hst'
    refine ⟨⟨birthAll_tids_nodup st _ _, ?_⟩, Nat.le_add_right _ _, ?_⟩
    · intro t ht
      obtain ⟨n, hn, h1, h2⟩ := birthAll_tid_fresh ht
      refine ⟨n, hn, by omega, ?_⟩
      show n ≤ st.id_count + (preprocess tl results).length
      omega
    · intro t ht
      obtain ⟨n, hn, h1, -⟩ := birthAll_tid_fresh ht
      exact Or.inr ⟨n, hn, h1⟩
  · -- steady state
    have hp : 0 < (trkPos st).length := by rw [trkPos_length]; omega
    rw [cp_model_eq_ok lsa g st st.tracks (preprocess tl results) (trkPos st)
      (detsOf (preprocess tl results)) hp] at hcp
    have h' := Except.ok.inj hcp
    have hm_eq : cpMatches lsa g st st.tracks (preprocess tl results) (trkPos st)
        (detsOf (preprocess tl results)) = m := congrArg Prod.fst h'
    have hu1_eq : cpU1 lsa g st st.tracks (preprocess tl results) (trkPos st)
        (detsOf (preprocess tl results)) = u1 :=
      congrArg Prod.fst (congrArg Prod.snd h')
    obtain ⟨hNodup, hBounds⟩ := hInv
    -- structural facts about the match list
    have hmsub : m.Sublist (cpFull lsa g st st.tracks (preprocess tl results)
        (trkPos st) (detsOf (preprocess tl results))) :=
      hm_eq ▸ cpMatches_sublist lsa g st st.tracks (preprocess tl results)
        (trkPos st) (detsOf (preprocess tl results))
    have hfull_ok := cpFull_ok lsa g hl hg st st.tracks (preprocess tl results)
      (trkPos st) (detsOf (preprocess tl results))
    have hmb : ∀ p ∈ m, p.2 < st.tracks.length := fun p hp' =>
      ((hfull_ok.1 p (hmsub.subset hp')).2)
    have hmcols_nodup : (m.map Prod.snd).Nodup :=
      (List.Sublist.map Prod.snd hmsub).nodup hfull_ok.2.2
    have hmcols_b : ∀ j ∈ m.map Prod.snd, j < st.tracks.length := by
      intro j hj
      obtain ⟨p, hp', he⟩ := List.mem_map.1 hj
      exact he ▸ hmb p hp'
    -- structural facts about the unmatched-track list
    have hu1_nodup : u1.Nodup := hu1_eq ▸ cpU1_nodup lsa g st st.tracks
      (preprocess tl results) (trkPos st) (detsOf (preprocess tl results))
    have hu1_b : ∀ i ∈ u1, i < st.tracks.length := by
      intro i hi
      have := (cpU1_mem (hu1_eq ▸ hi)).1
      rwa [trkPos_length] at this
    have hu1_not_mcol : ∀ j ∈ m.map Prod.snd, j ∉ u1 := by
      intro j hj hju1
      have hnot := (cpU1_mem (hu1_eq ▸ hju1)).2
      obtain ⟨p, hp', he⟩ := List.mem_map.1 hj
      exact hnot (List.mem_map.2 ⟨p, hmsub.subset hp', he⟩)
    -- identities drawn from the old tracks are bounded by the old counter
    have hold : ∀ i, i < st.tracks.length →
        ∃ n, (st.tracks.getD i defaultDet).tracking_id = some n ∧ 0 < n ∧
          n ≤ st.id_count := fun i hi => hBounds _ (getD_mem hi)
    -- the three tid segments
    have hA := matchOut_tids st (preprocess tl results) m
    have hC := agedOut_tids_sublist st u1
    -- Nodup of the concatenation
    have hndA : ((matchOut st (preprocess tl results) m).map
        fun t => t.tracking_id).Nodup := by
      rw [hA]
      exact nodup_tids_map st.tracks hNodup _ hmcols_nodup hmcols_b
    have hndB := birthOut_tids_nodup st (preprocess tl results) st.id_count u2
    have hndC : ((agedOut st u1).map fun t => t.tracking_id).Nodup :=
      hC.nodup (nodup_tids_map st.tracks hNodup u1 hu1_nodup hu1_b)
    have hdisjAC : ((matchOut st (preprocess tl results) m).map
        fun t => t.tracking_id).Disjoint
        ((agedOut st u1).map fun t => t.tracking_id) := by
      intro x hx1 hx2
      have hdis := disjoint_tids_map st.tracks hNodup (m.map Prod.snd) u1
        hmcols_b hu1_b hu1_not_mcol
      rw [hA] at hx1
      exact hdis hx1 (by
        obtain ⟨t, ht, hte⟩ := List.mem_map.1 hx2
        obtain ⟨i, hi, htid⟩ := agedOut_tid_mem ht
        exact List.mem_map.2 ⟨i, hi, by rw [← htid, hte]⟩)
    have hfreshB : ∀ x ∈ (birthOut st (preprocess tl results) st.id_count u2).map
        (fun t => t.tracking_id), ∃ n, x = some n ∧ st.id_count < n := by
      intro x hx
      obtain ⟨t, ht, hte⟩ := List.mem_map.1 hx
      obtain ⟨n, hn, h1, -⟩ := birthOut_tid_fresh ht
      exact ⟨n, by rw [← hte, hn], h1⟩
    have holdA : ∀ x ∈ (matchOut st (preprocess tl results) m).map
        (fun t => t.tracking_id), ∃ n, x = some n ∧ n ≤ st.id_count := by
      intro x hx
      rw [hA] at hx
      obtain ⟨j, hj, he⟩ := List.mem_map.1 hx
      obtain ⟨n, hn, -, h2⟩ := hold j (hmcols_b j hj)
      exact ⟨n, by rw [← he, hn], h2⟩
    have holdC : ∀ x ∈ (agedOut st u1).map (fun t => t.tracking_id),
        ∃ n, x = some n ∧ n ≤ st.id_count := by
      intro x hx
      obtain ⟨t, ht, hte⟩ := List.mem_map.1 hx
      obtain ⟨i, hi, htid⟩ := agedOut_tid_mem ht
      obtain ⟨n, hn, -, h2⟩ := hold i (hu1_b i hi)
      exact ⟨n, by rw [← hte, htid, hn], h2⟩
    have hdisjAB : ((matchOut st (preprocess tl results) m).map
        fun t => t.tracking_id).Disjoint
        ((birthOut st (preprocess tl results) st.id_count u2).map
          fun t => t.tracking_id) := by
      intro x hx1 hx2
      obtain ⟨n, hn, h2⟩ := holdA x hx1
      obtain ⟨n', hn', h1⟩ := hfreshB x hx2
      rw [hn] at hn'
      have : n = n' := Option.some.inj hn'
      omega
    have hdisjBC : ((birthOut st (preprocess tl results) st.id_count u2).map
        fun t => t.tracking_id).Disjoint
        ((agedOut st u1).map fun t => t.tracking_id) := by
      intro x hx1 hx2
      obtain ⟨n', hn', h1⟩ := hfreshB x hx1
      obtain ⟨n, hn, h2⟩ := holdC x hx2
      rw [hn] at hn'
      have : n = n' := Option.some.inj hn'
      omega
    subst hst'
    refine ⟨⟨?_, ?_⟩, Nat.le_add_right _ _, ?_⟩
    · show ((matchOut st (preprocess tl results) m ++
          birthOut st (preprocess tl results) st.id_count u2 ++
          agedOut st u1).map fun t => t.tracking_id).Nodup
      rw [List.map_append, List.map_append, List.nodup_append, List.nodup_append]
      refine ⟨⟨hndA, hndB, hdisjAB⟩, hndC, ?_⟩
      intro x hx
      rcases List.mem_append.1 hx with hx | hx
      · exact hdisjAC hx
      · exact hdisjBC hx
    · intro t ht
      rcases List.mem_append.1 ht with hab | hc
      · rcases List.mem_append.1 hab with ha | hb
        · obtain ⟨mm, hmm, hte⟩ := mem_matchOut ha
          obtain ⟨n', hn', hpos, hle⟩ := hold mm.2 (hmb mm hmm)
          have htt : t.tracking_id = some n' := by rw [hte]; exact hn'
          refine ⟨n', htt, hpos, ?_⟩
          show n' ≤ st.id_count + u2.length
          omega
        · obtain ⟨n, hn, h1, h2⟩ := birthOut_tid_fresh hb
          refine ⟨n, hn, by omega, ?_⟩
          show n ≤ st.id_count + u2.length
          omega
      · obtain ⟨i, hi, htid⟩ := agedOut_tid_mem hc
        obtain ⟨n', hn', hpos, hle⟩ := hold i (hu1_b i hi)
        refine ⟨n', by rw [htid]; exact hn', hpos, ?_⟩
        show n' ≤ st.id_count + u2.length
        omega
    · intro t ht
      rcases List.mem_append.1 ht with hab | hc
      · rcases List.mem_append.1 hab with ha | hb
        · obtain ⟨mm, hmm, hte⟩ := mem_matchOut ha
          refine Or.inl (List.mem_map.2 ⟨st.tracks.getD mm.2 defaultDet,
            getD_mem (hmb mm hmm), ?_⟩)
          rw [hte]
        · obtain ⟨n, hn, h1, -⟩ := birthOut_tid_fresh hb
          exact Or.inr ⟨n, hn, h1⟩
      · obtain ⟨i, hi, htid⟩ := agedOut_tid_mem hc
        exact Or.inl (List.mem_map.2 ⟨st.tracks.getD i defaultDet,
          getD_mem (hu1_b i hi), htid.symm⟩)

/-- Session-level identity invariant: running any frame list from a state with
the invariant preserves it, keeps the counter monotone, and only introduces
identities above the starting counter. -/
theorem run_model_ids (lsa g : Solver) (hl : SolverOk lsa) (hg : SolverOk g) :
    ∀ (fs : List (List Det × ℚ)) (st st' : TrackerState), IdsOk st →
      runFrames (comparing_positions_model lsa g) st fs = .ok st' →
      IdsOk st' ∧ st.id_count ≤ st'.id_count ∧
        ∀ t ∈ st'.tracks, t.tracking_id ∈ st.tracks.map (fun p => p.tracking_id) ∨
          ∃ n, t.tracking_id = some n ∧ st.id_count < n := by
  intro fs
  induction fs with
  | nil =>
    intro st st' hInv h
    have hst : st = st' := Except.ok.inj h
    subst hst
    refine ⟨hInv, Nat.le_refl _, ?_⟩
    intro t ht
    exact Or.inl (List.mem_map.2 ⟨t, ht, rfl⟩)
  | cons f fs ih =>
    intro st st' hInv h
    rw [runFrames] at h
    rcases hstep : step_centertrack (comparing_positions_model lsa g) st f.1 f.2 with
      e | pair
    · rw [hstep] at h; cases h
    · obtain ⟨ret1, st1⟩ := pair
      rw [hstep] at h
      obtain ⟨hInv1, hmono1, hfresh1⟩ :=
        step_model_ids lsa g hl hg st f.1 f.2 ret1 st1 hInv hstep
      obtain ⟨hInv2, hmono2, hfresh2⟩ := ih st1 st' hInv1 h
      refine ⟨hInv2, Nat.le_trans hmono1 hmono2, ?_⟩
      intro t ht
      rcases hfresh2 t ht with hmem | ⟨n, hn, hgt⟩
      · obtain ⟨p, hp, hpe⟩ := List.mem_map.1 hmem
        rcases hfresh1 p hp with hmem' | ⟨n, hn, hgt⟩
        · exact Or.inl (hpe ▸ hmem')
        · exact Or.inr ⟨n, hpe ▸ hn, hgt⟩
      · exact Or.inr ⟨n, hn, by omega⟩

/-- C6: identity uniqueness across a session.  After any frame sequence from a
fresh session, live identities are pairwise distinct, positive and bounded by
the session counter; and an identity that is at most the counter at an
intermediate state but still live later was already live at that state (so a
deleted identity is never reassigned). -/
theorem c6_identity_uniqueness (lsa g : Solver) (hl : SolverOk lsa) (hg : SolverOk g)
    (fs : List (List Det × ℚ)) (st' : TrackerState)
    (h : runFrames (comparing_positions_model lsa g) initState fs = .ok st') :
    ((st'.tracks.map fun t => t.tracking_id).Nodup ∧
      ∀ t ∈ st'.tracks, ∃ n, t.tracking_id = some n ∧ 0 < n ∧ n ≤ st'.id_count) ∧
    ∀ (fs2 : List (List Det × ℚ)) (st'' : TrackerState),
      runFrames (comparing_positions_model lsa g) st' fs2 = .ok st'' →
      ∀ t ∈ st''.tracks, ∀ n, t.tracking_id = some n → n ≤ st'.id_count →
        t.tracking_id ∈ st'.tracks.map fun p => p.tracking_id := by
  have hInit : IdsOk initState := by
    constructor
    · exact List.nodup_nil
    · intro t ht; cases ht
  obtain ⟨hInv, -, -⟩ := run_model_ids lsa g hl hg fs initState st' hInit h
  refine ⟨hInv, ?_⟩
  intro fs2 st'' h2 t ht n hn hle
  obtain ⟨-, -, hfresh⟩ := run_model_ids lsa g hl hg fs2 st' st'' hInv h2
  rcases hfresh t ht with hmem | ⟨n', hn', hgt⟩
  · exact hmem
  · rw [hn] at hn'
    have : n = n' := Option.some.inj hn'
    omega

/-! ## Frames and elapsed time -/

theorem preprocess_length_indep (results : List Det) (tl tl' : ℚ) :
    (preprocess tl results).length = (preprocess tl' results).length := by
  induction results with
  | nil => rfl
  | cons d rest ih =>
    by_cases hc : d.detection_name ∈ NUSCENES_TRACKING_NAMES
    · simp only [preprocess, List.filterMap_cons, if_pos hc, List.length_cons] at *
      omega
    · simp only [preprocess, List.filterMap_cons, if_neg hc] at *
      exact ih

theorem preprocess_isEmpty_indep (results : List Det) (tl tl' : ℚ) :
    (preprocess tl results).isEmpty = (preprocess tl' results).isEmpty := by
  have h := preprocess_length_indep results tl tl'
  rcases h1 : preprocess tl results with _ | ⟨a, l⟩ <;>
    rcases h2 : preprocess tl' results with _ | ⟨b, l'⟩ <;>
      rw [h1, h2] at h <;> simp_all

theorem cp_src_err (st : TrackerState) (p1data p2data : List Det)
    (p1 p2 : List (ℚ × ℚ)) (hp : 0 < p1.length) :
    comparing_positions st p1data p2data p1 p2 =
      .error (if st.hungarian then .typeError else .notImplementedError) := by
  unfold comparing_positions
  rw [if_pos hp]
  split <;> rfl

/-- C9 (amended): `step_centertrack` never validates the elapsed time: whether
the frame call fails is entirely independent of `time_lag`; in particular a
strictly negative elapsed time is processed exactly like any other and is not
rejected. -/
theorem c9_negative_time_amended (st : TrackerState) (results : List Det)
    (tl tl' : ℚ) :
    (step_centertrack comparing_positions st results tl).isOk =
      (step_centertrack comparing_positions st results tl').isOk := by
  unfold step_centertrack
  by_cases h1 : results.isEmpty
  · rw [if_pos h1, if_pos h1]
  · rw [if_neg h1, if_neg h1]
    by_cases h2 : st.tracks.length = 0
    · rw [if_pos h2, if_pos h2]
      rfl
    · rw [if_neg h2, if_neg h2]
      have hp : 0 < (trkPos st).length := by
        rw [trkPos_length]; omega
      by_cases h3 : (preprocess tl results).isEmpty
      · have h3' : (preprocess tl' results).isEmpty = true := by
          rw [← preprocess_isEmpty_indep results tl tl']
          exact h3
        rw [if_pos h3, if_pos h3']
      · have h3' : ¬(preprocess tl' results).isEmpty = true := by
          rw [← preprocess_isEmpty_indep results tl tl']
          exact h3
        rw [if_neg h3, if_neg h3']
        rw [cp_src_err st st.tracks (preprocess tl results) (trkPos st)
          (detsOf (preprocess tl results)) hp]
        rw [cp_src_err st st.tracks (preprocess tl' results) (trkPos st)
          (detsOf (preprocess tl' results)) hp]

/-- C8 (amended): with no prior track the frame is handled as a pure-birth
frame without ever consulting the assignment stage (the step result does not
depend on it), and `comparing_positions` with an empty track side returns
without consulting either solving routine (its result does not depend on
them).  The counterexample shows that with `M ≥ 1` prior tracks and zero
admissible detections the solver branch is, by contrast, reached. -/
theorem c8_degenerate_amended :
    (∀ (cp cp' : CPFun) (st : TrackerState) (results : List Det) (tl : ℚ),
      st.tracks = [] →
        step_centertrack cp st results tl = step_centertrack cp' st results tl) ∧
    (∀ (lsa lsa' g g' : Solver) (st : TrackerState) (p2data : List Det)
        (p2 : List (ℚ × ℚ)),
      comparing_positions_model lsa g st [] p2data [] p2 =
        comparing_positions_model lsa' g' st [] p2data [] p2) := by
  constructor
  · intro cp cp' st results tl htr
    unfold step_centertrack
    by_cases h1 : results.isEmpty
    · rw [if_pos h1, if_pos h1]
    · rw [if_neg h1, if_neg h1]
      have h2 : st.tracks.length = 0 := by rw [htr]; rfl
      rw [if_pos h2, if_pos h2]
  · intro lsa lsa' g g' st p2data p2
    rfl

/-! ## Concrete runs: code-bug exhibits, counterexamples and witnesses -/

/-- C1: the raw-empty frame resets the track set and returns an empty result
(first half of the claim), but a frame whose detections are all of untracked
classes, against a live track set, raises `IndexError` at line 217
(`results[0]` on the emptied list) instead of discarding the tracks and
returning an empty result. -/
theorem c1_filtered_empty_frame_bug :
    step_centertrack comparing_positions afterSt [] 1 =
      .ok ([], { afterSt with tracks := [] }) ∧
    step_centertrack comparing_positions afterSt [ignoreDet] 1 =
      .error .indexError := by
  constructor
  · with_unfolding_all decide
  · with_unfolding_all decide

/-- C4: with one prior track and one admissible detection, the assignment
stage raises in both modes: greedy mode hits the `NotImplementedError` of the
line-49 stub, and hungarian mode hits the `TypeError` of line 77 (the tuple
returned by `linear_sum_assignment` is indexed with `[:, 1]`; the line-105
`reshape` helper is never applied). -/
theorem c4_assignment_stage_raises :
    comparing_positions afterSt [birthTrk] [nearCarExt] [(0, 0)] [(1, 0)] =
      .error .notImplementedError ∧
    comparing_positions afterStH [birthTrk] [nearCarExt] [(0, 0)] [(1, 0)] =
      .error .typeError := by
  constructor
  · with_unfolding_all decide
  · with_unfolding_all decide

/-- C8 counterexample: with `M = 1` prior track and `N = 0` detections the
code enters the solver branch (only `M = 0` is guarded), so the greedy routine
is invoked on the empty-row matrix and its stub exception propagates — the
frame is neither handled without error nor kept away from the solving
routine. -/
theorem c8_degenerate_counterexample :
    comparing_positions afterSt [birthTrk] [] [(0, 0)] [] =
      .error .notImplementedError := by
  with_unfolding_all decide

/-- C8 witness: a first frame (no prior track) is a pure-birth frame whose
result does not depend on the assignment stage at all. -/
theorem c8_degenerate_amended_witness :
    initState.tracks = [] ∧
    step_centertrack comparing_positions initState [carDet0] 1 =
      step_centertrack (comparing_positions_model emptySolver emptySolver)
        initState [carDet0] 1 :=
  ⟨rfl, c8_degenerate_amended.1 comparing_positions
    (comparing_positions_model emptySolver emptySolver) initState [carDet0] 1 rfl⟩

/-- C9 counterexample: a frame call with strictly negative elapsed time is not
rejected — it is processed normally and returns a born track. -/
theorem c9_negative_time_counterexample :
    step_centertrack comparing_positions initState [carDet0] (-1) =
      .ok ([birthTrk], afterSt) := by
  with_unfolding_all decide

/-- C5 counterexample: with `max_age = 0` a first-frame birth is emitted with
`age = 1 > 0 = max_age`, so a track with `age ≥ max_age` does appear in the
frame output. -/
theorem c5_deletion_guarantee_counterexample :
    step_centertrack comparing_positions stZeroAge [carDet0] 1 =
      .ok ([birthTrk], { stZeroAge with id_count := 1, tracks := [birthTrk] }) ∧
    ¬birthTrk.age.getD 0 ≤ stZeroAge.max_age := by
  constructor
  · with_unfolding_all decide
  · decide

/-- C5 witness: the amended age bound at a concrete frame. -/
theorem c5_deletion_guarantee_amended_witness :
    1 ≤ initState.max_age ∧
    ∀ t ∈ [birthTrk], t.age.getD 0 ≤ initState.max_age ∧
      (2 ≤ t.age.getD 0 → initState.del_th < t.detection_score) :=
  ⟨by decide, c5_deletion_guarantee_amended comparing_positions initState [carDet0] 1
    [birthTrk] afterSt (by decide) (by with_unfolding_all decide)⟩

/-- C10 counterexample: processing a frame extends the caller's detection
record in place — the emitted record is the supplied dict with `ct`,
`tracking`, `label_preds`, `tracking_id`, `age` and `active` added, so the
record is not left unchanged (while its translation is untouched). -/
theorem c10_readonly_counterexample :
    step_centertrack comparing_positions initState [carDet0] 1 =
      .ok ([birthTrk], afterSt) ∧
    carDet0.tracking_id = none ∧ birthTrk.tracking_id = some 1 ∧
    birthTrk ≠ carDet0 ∧ birthTrk.translation = carDet0.translation := by
  refine ⟨by with_unfolding_all decide, rfl, rfl, by decide, rfl⟩

/-- C3 counterexample: in hungarian mode, a single gated (cross-gate) pair is
assigned by the optimal solver (`pairSolver` returns `[(0, 0)]`, exactly what
`linear_sum_assignment` returns on a 1 x 1 matrix) and then discarded; its
detection index is appended to the unmatched detections but its track index is
lost, so `|matches| + |unmatched_tracks| = 0 ≠ 1 = M`. -/
theorem c3_exhaustive_partition_counterexample :
    comparing_positions_model pairSolver emptySolver afterStH [birthTrk] [farCarExt]
        [(0, 0)] [(100, 0)] = .ok ([], [], [0]) ∧
    ([] : List (Nat × Nat)).length + ([] : List Nat).length ≠ [birthTrk].length := by
  constructor
  · with_unfolding_all decide
  · decide

/-- C2 witness: a concrete in-gate match returned by the greedy-mode stage
satisfies the admissibility conclusion. -/
theorem c2_matching_admissibility_witness :
    (comparing_positions_model emptySolver greedy_assignment_spec afterSt [birthTrk]
        [nearCarExt] [(0, 0)] [(1, 0)] = .ok ([(0, 0)], [], [])) ∧
    ∀ m ∈ [((0 : Nat), (0 : Nat))], m.1 < [nearCarExt].length ∧
      m.2 < [birthTrk].length ∧
      ([nearCarExt].getD m.1 defaultDet).label_preds.getD 0 =
        ([birthTrk].getD m.2 defaultDet).label_preds.getD 0 ∧
      sqDist ([((1 : ℚ), (0 : ℚ))].getD m.1 (0, 0)) ([((0 : ℚ), (0 : ℚ))].getD m.2 (0, 0)) ≤
        velocity_error ([nearCarExt].getD m.1 defaultDet).detection_name ^ 2 := by
  refine ⟨by with_unfolding_all decide, ?_⟩
  exact c2_matching_admissibility emptySolver greedy_assignment_spec emptySolver_ok
    greedy_spec_solverOk greedy_spec_gated afterSt [birthTrk] [nearCarExt]
    [(0, 0)] [(1, 0)] [(0, 0)] [] [] (by with_unfolding_all decide)

/-- C3 witness: the amended partition equalities at a concrete greedy-mode
frame. -/
theorem c3_exhaustive_partition_amended_witness :
    (comparing_positions_model emptySolver greedy_assignment_spec afterSt [birthTrk]
        [nearCarExt] [(0, 0)] [(1, 0)] = .ok ([(0, 0)], [], [])) ∧
    ([((0 : Nat), (0 : Nat))].length + ([] : List Nat).length = [nearCarExt].length ∧
      ∃ k, [((0 : Nat), (0 : Nat))].length + ([] : List Nat).length + k =
          [birthTrk].length ∧ (afterSt.hungarian = false → k = 0)) := by
  refine ⟨by with_unfolding_all decide, ?_⟩
  exact c3_exhaustive_partition_amended emptySolver greedy_assignment_spec
    emptySolver_ok greedy_spec_solverOk afterSt [birthTrk] [nearCarExt]
    [(0, 0)] [(1, 0)] [(0, 0)] [] [] rfl rfl (by with_unfolding_all decide)

/-- C6 witness: the identity invariant after a concrete one-frame session. -/
theorem c6_identity_uniqueness_witness :
    (runFrames (comparing_positions_model emptySolver greedy_assignment_spec)
        initState [([carDet0], 1)] = .ok afterSt) ∧
    (afterSt.tracks.map fun t => t.tracking_id).Nodup := by
  refine ⟨by with_unfolding_all decide, ?_⟩
  exact ((c6_identity_uniqueness emptySolver greedy_assignment_spec emptySolver_ok
    greedy_spec_solverOk [([carDet0], 1)] afterSt
    (by with_unfolding_all decide)).1).1

/-- C7 witness: a concrete unmatched detection (outside the gate) is born with
the fresh id 2, age 1 and active 1. -/
theorem c7_birth_fields_witness :
    (comparing_positions_model emptySolver greedy_assignment_spec afterSt
        afterSt.tracks (preprocess 1 [farCar]) (trkPos afterSt)
        (detsOf (preprocess 1 [farCar])) = .ok ([], [0], [0])) ∧
    ∃ ret st', step_centertrack
        (comparing_positions_model emptySolver greedy_assignment_spec)
        afterSt [farCar] 1 = .ok (ret, st') ∧
      ∃ t ∈ ret, t.tracking_id = some (afterSt.id_count + 0 + 1) ∧ t.age = some 1 ∧
        t.active = some (if afterSt.det_th <
            ((preprocess 1 [farCar]).getD 0 defaultDet).detection_score then 1 else 0) ∧
        ∀ p ∈ afterSt.tracks, p.tracking_id ≠ some (afterSt.id_count + 0 + 1) := by
  refine ⟨by with_unfolding_all decide, ?_⟩
  exact c7_birth_fields (comparing_positions_model emptySolver greedy_assignment_spec)
    afterSt [farCar] 1 [] [0] [0] 0 0 (by decide) rfl
    (by with_unfolding_all decide) (by with_unfolding_all decide) rfl
    (by
      intro p hp np hnp
      have hp' : p = birthTrk :=
        List.mem_singleton.1 (show p ∈ [birthTrk] from hp)
      rw [hp'] at hnp
      have h1 : (1 : Nat) = np := Option.some.inj hnp
      show np ≤ 1
      omega)

/-- C10 witness: in a concrete steady-state frame, every emitted `age = 1`
record preserves the translation, velocity and confidence of a supplied
detection. -/
theorem c10_readonly_amended_witness :
    (step_centertrack (comparing_positions_model emptySolver greedy_assignment_spec)
        afterSt [farCar] 1 = .ok ([farBornTrk, agedTrk], afterSt2)) ∧
    ∀ t ∈ [farBornTrk, agedTrk], t.age = some 1 →
      ∃ d ∈ [farCar], t.translation = d.translation ∧ t.velocity = d.velocity ∧
        t.detection_score = d.detection_score := by
  refine ⟨by with_unfolding_all decide, ?_⟩
  exact c10_readonly_amended emptySolver greedy_assignment_spec emptySolver_ok
    greedy_spec_solverOk afterSt [farCar] 1 [farBornTrk, agedTrk] afterSt2
    (by
      intro t ht
      have ht' : t = birthTrk :=
        List.mem_singleton.1 (show t ∈ [birthTrk] from ht)
      rw [ht']
      decide)
    (by with_unfolding_all decide)

end SDC
